import Mathlib

/-!
Verification of the instruction-encoding core (ir/instr.cpp) of the
alive2-x86 translation-validation engine.

The encoder builds, for each IR instruction, a (value, non-poison) pair plus
a set of UB side conditions over a symbolic state.  We embed the relevant
encoders shallowly: machine integers of width `w` are naturals below `2^w`,
symbolic boolean expressions are either evaluated booleans or, where the
code branches on syntactic properties of expressions (`isConst`,
`isFalse`), a pair of the boolean's semantics and its syntactic constancy.
External bitvector primitives (the smt/expr algebra) are modelled by their
standard SMT-LIB semantics.
-/

namespace AliveIR

/-- Two's-complement reading of an unsigned `w`-bit value. -/
def toSigned (w n : Nat) : Int :=
  if n < 2 ^ (w - 1) then (n : Int) else (n : Int) - (2 ^ w : Int)

/-- Wrap an integer into an unsigned `w`-bit value. -/
def ofInt (w : Nat) (i : Int) : Nat :=
  (i % ((2 : Int) ^ w)).toNat

/-- Value of `expr::IntSMin(w)`: the most negative signed `w`-bit value. -/
def intSMin (w : Nat) : Nat := 2 ^ (w - 1)

/-- Value of `expr::mkInt(-1, w)`: the all-ones `w`-bit value. -/
def allOnes (w : Nat) : Nat := 2 ^ w - 1

/-- Signed range check used by the `*_no_soverflow` primitives. -/
def inRangeS (w : Nat) (i : Int) : Bool :=
  decide (-((2 : Int) ^ (w - 1)) ≤ i ∧ i < (2 : Int) ^ (w - 1))

/-- Count of trailing zeros of an `w`-bit value (`expr::cttz` with the
`w`-for-zero default). -/
def cttzFn : Nat → Nat → Nat
  | 0, _ => 0
  | fuel + 1, a => if a % 2 = 1 then 0 else 1 + cttzFn fuel (a / 2)

/-- Count of leading zeros of a `w`-bit value (`expr::ctlz`). -/
def ctlzFn (w a : Nat) : Nat :=
  if a = 0 then w else w - (Nat.log2 a + 1)

/-- Opcodes of `BinOp` (ir/instr.cpp, `BinOp::Op`). -/
inductive BinOpOp
  | add | sub | mul | sdiv | udiv | srem | urem | shl | ashr | lshr
  | sadd_sat | uadd_sat | ssub_sat | usub_sat | sshl_sat | ushl_sat
  | band | bor | bxor
  | cttz | ctlz
  | sadd_overflow | uadd_overflow | ssub_overflow | usub_overflow
  | smul_overflow | umul_overflow
  | umin | umax | smin | smax | iabs
deriving DecidableEq, Repr

/-- The nsw/nuw/exact flag set carried by a `BinOp`. -/
structure BinOpFlags where
  nsw : Bool
  nuw : Bool
  exct : Bool
deriving DecidableEq, Repr

/-- The empty flag set (`flags == None`). -/
def noFlags : BinOpFlags := ⟨false, false, false⟩

/-- `BinOp::isDivOrRem` (ir/instr.cpp). -/
def isDivOrRem : BinOpOp → Bool
  | .sdiv | .srem | .udiv | .urem => true
  | _ => false

/-- The six overflow-reporting opcodes which set `vertical_zip` in
`BinOp::toSMT`. -/
def isVerticalZip : BinOpOp → Bool
  | .sadd_overflow | .uadd_overflow | .ssub_overflow | .usub_overflow
  | .smul_overflow | .umul_overflow => true
  | _ => false

/-- Signed division with the SMT-LIB `bvsdiv` conventions (division by zero
yields all-ones for non-negative dividends and 1 otherwise). -/
def sdivVal (w a b : Nat) : Nat :=
  if b = 0 then (if 0 ≤ toSigned w a then allOnes w else 1)
  else ofInt w (Int.tdiv (toSigned w a) (toSigned w b))

/-- Unsigned division with the SMT-LIB `bvudiv` convention. -/
def udivVal (w a b : Nat) : Nat :=
  if b = 0 then allOnes w else a / b

/-- Signed remainder (`bvsrem`): remainder of truncated division. -/
def sremVal (w a b : Nat) : Nat :=
  if b = 0 then a else ofInt w (Int.tmod (toSigned w a) (toSigned w b))

/-- Unsigned remainder (`bvurem`). -/
def uremVal (_w a b : Nat) : Nat :=
  if b = 0 then a else a % b

/-- Clamp an integer to the signed `w`-bit range (saturating ops). -/
def clampS (w : Nat) (i : Int) : Int :=
  max (-((2 : Int) ^ (w - 1))) (min i ((2 : Int) ^ (w - 1) - 1))

/-- Value component of the scalar operator of each `BinOp` opcode.  For the
overflow-reporting opcodes it is the wrapped arithmetic result (first slot
of the pair built by `zip_op`). -/
def binopFnVal (op : BinOpOp) (w a b : Nat) : Nat :=
  match op with
  | .add => (a + b) % 2 ^ w
  | .sub => ofInt w ((a : Int) - (b : Int))
  | .mul => (a * b) % 2 ^ w
  | .sdiv => sdivVal w a b
  | .udiv => udivVal w a b
  | .srem => sremVal w a b
  | .urem => uremVal w a b
  | .shl => (a * 2 ^ b) % 2 ^ w
  | .ashr => ofInt w (Int.ediv (toSigned w a) ((2 : Int) ^ b))
  | .lshr => a / 2 ^ b
  | .sadd_sat => ofInt w (clampS w (toSigned w a + toSigned w b))
  | .uadd_sat => min (a + b) (allOnes w)
  | .ssub_sat => ofInt w (clampS w (toSigned w a - toSigned w b))
  | .usub_sat => a - b
  | .sshl_sat => ofInt w (clampS w (toSigned w a * (2 : Int) ^ b))
  | .ushl_sat => min (a * 2 ^ b) (allOnes w)
  | .band => a &&& b
  | .bor => a ||| b
  | .bxor => a ^^^ b
  | .cttz => cttzFn w a
  | .ctlz => ctlzFn w a
  | .sadd_overflow => (a + b) % 2 ^ w
  | .uadd_overflow => (a + b) % 2 ^ w
  | .ssub_overflow => ofInt w ((a : Int) - (b : Int))
  | .usub_overflow => ofInt w ((a : Int) - (b : Int))
  | .smul_overflow => (a * b) % 2 ^ w
  | .umul_overflow => (a * b) % 2 ^ w
  | .umin => min a b
  | .umax => max a b
  | .smin => ofInt w (min (toSigned w a) (toSigned w b))
  | .smax => ofInt w (max (toSigned w a) (toSigned w b))
  | .iabs => ofInt w |toSigned w a|

/-- Second lane built by `zip_op` for overflow-reporting opcodes: the
overflow bit as a 1-bit value (`(!no_overflow).toBVBool()`). -/
def binopOvfVal (op : BinOpOp) (w a b : Nat) : Nat :=
  match op with
  | .sadd_overflow => if inRangeS w (toSigned w a + toSigned w b) then 0 else 1
  | .uadd_overflow => if a + b < 2 ^ w then 0 else 1
  | .ssub_overflow => if inRangeS w (toSigned w a - toSigned w b) then 0 else 1
  | .usub_overflow => if b ≤ a then 0 else 1
  | .smul_overflow => if inRangeS w (toSigned w a * toSigned w b) then 0 else 1
  | .umul_overflow => if a * b < 2 ^ w then 0 else 1
  | _ => 0

/-- Non-poison component computed by the per-opcode lambda `fn` in
`BinOp::toSMT`, before `scalar_op` conjoins the operands' non-poison. -/
def binopFnNp (op : BinOpOp) (fl : BinOpFlags) (w a b : Nat)
    (ap bp : Bool) : Bool :=
  match op with
  | .add => (if fl.nsw then inRangeS w (toSigned w a + toSigned w b) else true)
            && (if fl.nuw then decide (a + b < 2 ^ w) else true)
  | .sub => (if fl.nsw then inRangeS w (toSigned w a - toSigned w b) else true)
            && (if fl.nuw then decide (b ≤ a) else true)
  | .mul => (if fl.nsw then inRangeS w (toSigned w a * toSigned w b) else true)
            && (if fl.nuw then decide (a * b < 2 ^ w) else true)
  | .sdiv => if fl.exct then decide (sremVal w a b = 0) else true
  | .udiv => if fl.exct then decide (uremVal w a b = 0) else true
  | .srem => true
  | .urem => true
  | .shl => decide (b < w)
            && (if fl.nsw then inRangeS w (toSigned w a * (2 : Int) ^ b)
                else true)
            && (if fl.nuw then decide (a * 2 ^ b < 2 ^ w) else true)
  | .ashr => decide (b < w)
             && (if fl.exct then decide (a % 2 ^ b = 0) else true)
  | .lshr => decide (b < w)
             && (if fl.exct then decide (a % 2 ^ b = 0) else true)
  | .sadd_sat => true
  | .uadd_sat => true
  | .ssub_sat => true
  | .usub_sat => true
  | .sshl_sat => decide (b < w)
  | .ushl_sat => decide (b < w)
  | .band => true
  | .bor => true
  | .bxor => true
  | .cttz => decide (b = 0) || decide (a ≠ 0)
  | .ctlz => decide (b = 0) || decide (a ≠ 0)
  | .umin | .umax | .smin | .smax => ap && bp
  | .iabs => ap && bp && (decide (b = 0) || decide (a ≠ intSMin w))
  | _ => true

/-- Conditions pushed via `s.addUB` by `div_ub` (ir/instr.cpp), in program
order.  `bp` there is already `true` because the divisor went through
`getAndAddPoisonUB`. -/
def div_ub (w a b : Nat) (ap : Bool) (sign : Bool) : List Bool :=
  [decide (b ≠ 0)]
  ++ (if sign then [(ap && decide (a ≠ intSMin w)) || decide (b ≠ allOnes w)]
      else [])

/-- Encoding of a scalar `BinOp`: the result lanes (one lane, except the
overflow-reporting opcodes which build a two-lane struct) and the UB
conditions added to the state, in order. -/
structure BinOpSMT where
  vals : List (Nat × Bool)
  ubs : List Bool
deriving DecidableEq, Repr

/-- Scalar path of `BinOp::toSMT`: for div/rem opcodes the divisor is
fetched through `getAndAddPoisonUB` (its non-poison becomes a UB condition
and is `true` from then on); the non-vertical result is
`{fn.val, ap && bp && fn.np}` per `scalar_op`, and the vertical result is
the pair built by `zip_op` with both lanes' non-poison `ap && bp`. -/
def binop_toSMT (op : BinOpOp) (fl : BinOpFlags) (w a : Nat) (ap : Bool)
    (b : Nat) (bp : Bool) : BinOpSMT :=
  let bnp := if isDivOrRem op then true else bp
  let divUBs :=
    match op with
    | .sdiv | .srem => div_ub w a b ap true
    | .udiv | .urem => div_ub w a b ap false
    | _ => []
  let ubs := (if isDivOrRem op then [bp] else []) ++ divUBs
  if isVerticalZip op then
    let np := ap && bnp
    { vals := [(binopFnVal op w a b, np), (binopOvfVal op w a b, np)],
      ubs := ubs }
  else
    { vals := [(binopFnVal op w a b,
                ap && bnp && binopFnNp op fl w a b ap bnp)],
      ubs := ubs }

/-- Opcodes whose non-poison carries a shift-amount domain check
(`b.ult(b.bits())`). -/
def hasShiftDomainCheck : BinOpOp → Bool
  | .shl | .ashr | .lshr | .sshl_sat | .ushl_sat => true
  | _ => false

/-- Shift-amount domain condition allowed by the spec: the amount must be
below the bit width for the shift-family opcodes, trivially true
otherwise. -/
def shiftDomainOk (op : BinOpOp) (w b : Nat) : Bool :=
  if hasShiftDomainCheck op then decide (b < w) else true

/-- Kind of a floating-point value; enough structure to evaluate the
classification predicates (`isFPZero`, `isNaN`, `isInf`, `isFPSubNormal`)
the encoder consults.  No floating arithmetic is modelled; operators stay
abstract. -/
inductive FPKind
  | zero | subn | normal | inf | nan
deriving DecidableEq, Repr

/-- A floating-point value: a sign bit and a kind. -/
structure FPVal where
  neg : Bool
  kind : FPKind
deriving DecidableEq, Repr

/-- The value `+0.0` (`expr::mkNumber("0", v)`). -/
def fpPZero : FPVal := ⟨false, .zero⟩

/-- The value `-0.0` (`expr::mkNumber("-0", v)`). -/
def fpNZero : FPVal := ⟨true, .zero⟩

/-- Zero test (`expr::isFPZero`). -/
def FPVal.isFPZero (v : FPVal) : Bool := v.kind = FPKind.zero

/-- Floating negation (`expr::fneg`): flips the sign. -/
def FPVal.fneg (v : FPVal) : FPVal := ⟨!v.neg, v.kind⟩

/-- NaN test (`expr::isNaN`). -/
def FPVal.isNaN (v : FPVal) : Bool := v.kind = FPKind.nan

/-- Infinity test (`expr::isInf`). -/
def FPVal.isInf (v : FPVal) : Bool := v.kind = FPKind.inf

/-- Subnormal test (`expr::isFPSubNormal`). -/
def FPVal.isFPSubNormal (v : FPVal) : Bool := v.kind = FPKind.subn

/-- Sign test (`expr::isFPNegative`). -/
def FPVal.isFPNegative (v : FPVal) : Bool := v.neg

/-- The three denormal-handling modes of `FPDenormalAttrs::Type`. -/
inductive FPDenormalTy
  | ieee | positiveZero | preserveSign
deriving DecidableEq, Repr

/-- `handle_subnormal` (ir/instr.cpp): flush a subnormal value to zero
according to the denormal attribute. -/
def handle_subnormal (attr : FPDenormalTy) (v : FPVal) : FPVal :=
  match attr with
  | .ieee => v
  | .positiveZero => if v.isFPSubNormal then fpPZero else v
  | .preserveSign =>
      if v.isFPSubNormal then (if v.isFPNegative then fpNZero else fpPZero)
      else v

/-- `any_fp_zero` (ir/instr.cpp): under NSZ a zero input is replaced by a
non-deterministic choice between the two signed zeros.  The fresh
quantified choice variable is modelled by the explicit boolean `choice`;
`addQuantVar` registers it but adds no UB. -/
def any_fp_zero (choice : Bool) (v : FPVal) : FPVal :=
  if choice && v.isFPZero then v.fneg else v

/-- The five concrete rounding modes. -/
inductive RoundingMode
  | rne | rna | rtp | rtn | rtz
deriving DecidableEq, Repr

/-- An instruction's rounding-mode attribute (`FpRoundingMode`): default,
dynamic, or a fixed concrete mode. -/
inductive FpRm
  | dflt | dyn | fixed (m : RoundingMode)
deriving DecidableEq, Repr

/-- `StateValue::mkIf` on a (value, non-poison) pair, with the condition
already evaluated. -/
def svIf {V : Type} (c : Bool) (t e : V × Bool) : V × Bool :=
  (if c then t.1 else e.1, if c then t.2 else e.2)

/-- `round_value_` (ir/instr.cpp): resolve the instruction's rounding mode
against the ambient dynamic rounding-mode register `var`. -/
def round_value_ {V : Type} (fn : RoundingMode → V × Bool)
    (var : RoundingMode) (rm : FpRm) : V × Bool :=
  match rm with
  | .dflt => fn .rne
  | .fixed m =>
      let p := fn m
      (p.1, p.2 && decide (var = m))
  | .dyn =>
      svIf (decide (var = .rne)) (fn .rne)
        (svIf (decide (var = .rna)) (fn .rna)
          (svIf (decide (var = .rtp)) (fn .rtp)
            (svIf (decide (var = .rtn)) (fn .rtn) (fn .rtz))))

/-- `round_value` (ir/instr.cpp): rounding-mode resolution followed by
subnormal flushing of the output per the function's denormal-output
attribute. -/
def round_value (fn : RoundingMode → FPVal × Bool) (var : RoundingMode)
    (outAttr : FPDenormalTy) (rm : FpRm)
    (enable_subnormal_flush : Bool) : FPVal × Bool :=
  let p := round_value_ fn var rm
  (if enable_subnormal_flush then handle_subnormal outAttr p.1 else p.1, p.2)

/-- Fast-math flag set. -/
structure FastMathFlags where
  nnan : Bool
  ninf : Bool
  nsz : Bool
  arcp : Bool
  contract : Bool
  reassoc : Bool
  afn : Bool
deriving DecidableEq, Repr

/-- The NSZ-only fast-math flag set. -/
def nszOnly : FastMathFlags := ⟨false, false, true, false, false, false, false⟩

/-- Interpretations of the uninterpreted approximation markers
(`expr::mkUF("arcp", ...)` etc.) that `fm_poison` wraps the result in. -/
structure ApproxUFs where
  arcpF : FPVal → FPVal
  contractF : FPVal → FPVal
  reassocF : FPVal → FPVal
  afnF : FPVal → FPVal

/-- Output of `fm_poison`: the result value, its non-poison predicate, the
approximation tags recorded via `doesApproximation`, and the UB conditions
pushed (none: neither `fm_poison` nor `any_fp_zero` ever calls `addUB`). -/
structure FmPoisonOut where
  val : FPVal
  non_poison : Bool
  approxTags : List String
  ubs : List Bool

/-- The n-ary `fm_poison` (ir/instr.cpp): NSZ zero-sign choice on the
inputs, denormal flushing, the abstract scalar operator, NNaN/NInf
non-poison side conditions, approximation markers, and the NSZ choice on
the output.  `cha`, `chb`, `chc`, `chres` are the fresh "anyzero" choice
variables in call order. -/
def fm_poison3 (denorm : FPDenormalTy) (uf : ApproxUFs)
    (cha chb chc chres : Bool)
    (a : FPVal) (ap : Bool) (b : FPVal) (bp : Bool) (c : FPVal) (cp : Bool)
    (fn : FPVal → FPVal → FPVal → FPVal)
    (fmath : FastMathFlags) (only_input : Bool) (flush_denormal : Bool)
    (nary : Nat) : FmPoisonOut :=
  let new_a := if fmath.nsz then any_fp_zero cha a else a
  let new_b := if fmath.nsz && decide (2 ≤ nary) then any_fp_zero chb b else b
  let new_c := if fmath.nsz && decide (nary = 3) then any_fp_zero chc c else c
  let new_a := if flush_denormal then handle_subnormal denorm new_a else new_a
  let new_b := if flush_denormal && decide (2 ≤ nary) then
                 handle_subnormal denorm new_b else new_b
  let new_c := if flush_denormal && decide (3 ≤ nary) then
                 handle_subnormal denorm new_c else new_c
  let val := fn new_a new_b new_c
  let np := ap && (if 2 ≤ nary then bp else true)
               && (if 3 ≤ nary then cp else true)
  let np := np &&
    (if fmath.nnan then
       !a.isNaN && (if 2 ≤ nary then !b.isNaN else true)
         && (if nary = 3 then !c.isNaN else true)
         && (if !only_input then !val.isNaN else true)
     else true)
  let np := np &&
    (if fmath.ninf then
       !a.isInf && (if 2 ≤ nary then !b.isInf else true)
         && (if nary = 3 then !c.isInf else true)
         && (if !only_input then !val.isInf else true)
     else true)
  let val := if fmath.arcp then uf.arcpF val else val
  let val := if fmath.contract then uf.contractF val else val
  let val := if fmath.reassoc then uf.reassocF val else val
  let val := if fmath.afn then uf.afnF val else val
  let val := if fmath.nsz && !only_input then any_fp_zero chres val else val
  let tags := (if fmath.arcp then ["arcp"] else [])
      ++ (if fmath.contract then ["contract"] else [])
      ++ (if fmath.reassoc then ["reassoc"] else [])
      ++ (if fmath.afn then ["afn"] else [])
  ⟨val, np, tags, []⟩

/-- The binary `fm_poison` overload: forwards to the ternary one with a
dummy third operand and `nary = 2`. -/
def fm_poison2 (denorm : FPDenormalTy) (uf : ApproxUFs)
    (cha chb chres : Bool)
    (a : FPVal) (ap : Bool) (b : FPVal) (bp : Bool)
    (fn2 : FPVal → FPVal → FPVal)
    (fmath : FastMathFlags) (only_input : Bool)
    (flush_denormal : Bool) : FmPoisonOut :=
  fm_poison3 denorm uf cha chb false chres a ap b bp ⟨false, .zero⟩ true
    (fun x y _ => fn2 x y) fmath only_input flush_denormal 2

/-- IR types as far as the conversion-op claims need them. -/
inductive IRType
  | intT (w : Nat)
  | floatT (w : Nat)
  | ptrT
  | vecT (n : Nat) (elem : IRType)
deriving DecidableEq, Repr

/-- Bit width of a pointer (`globals.cpp`'s `bits_program_pointer`; any
fixed width — the claims only compare total sizes). -/
def ptrBits : Nat := 64

/-- Total bit width of a type (`Type::sizeVar` / `Type::bits`). -/
def typeBits : IRType → Nat
  | .intT w => w
  | .floatT w => w
  | .ptrT => ptrBits
  | .vecT n e => n * typeBits e

/-- `Type::isVectorType`. -/
def isVectorType : IRType → Bool
  | .vecT _ _ => true
  | _ => false

/-- `AggregateType::getChild(0)` for vectors (identity elsewhere; the
encoder only calls it on vectors). -/
def getChild0 : IRType → IRType
  | .vecT _ e => e
  | t => t

/-- `Type::isPtrType`. -/
def isPtrType : IRType → Bool
  | .ptrT => true
  | _ => false

/-- The guard of the `BitCast` early return in `ConversionOp::toSMT`:
the destination is a vector whose element type is a pointer. -/
def bitcastIsPtrVecNop (t : IRType) : Bool :=
  isVectorType t && isPtrType (getChild0 t)

/-- Scalar int, float or pointer type. -/
def isIntFloatPtrScalar : IRType → Bool
  | .intT _ => true
  | .floatT _ => true
  | .ptrT => true
  | _ => false

/-- `Type::enforceIntOrFloatOrPtrOrVectorType`: scalar int/float/ptr or a
vector of such. -/
def enforceIntOrFloatOrPtrOrVectorType : IRType → Bool
  | .vecT _ e => isIntFloatPtrScalar e
  | t => isIntFloatPtrScalar t

/-- `Type::enforcePtrOrVectorType`: a pointer or a vector of pointers. -/
def enforcePtrOrVectorType : IRType → Bool
  | .ptrT => true
  | .vecT _ e => isPtrType e
  | _ => false

/-- The `BitCast` case of `ConversionOp::getTypeConstraints`: both sides
int/float/ptr (or vectors thereof), the ptr-or-vector-of-ptr constraints
agree, and the total size variables are equated. -/
def bitcast_typeConstraints (retTy valTy : IRType) : Prop :=
  enforceIntOrFloatOrPtrOrVectorType retTy = true
  ∧ enforceIntOrFloatOrPtrOrVectorType valTy = true
  ∧ enforcePtrOrVectorType retTy = enforcePtrOrVectorType valTy
  ∧ typeBits retTy = typeBits valTy

/-- The `BitCast` branch of `ConversionOp::toSMT`: a pointer-vector
destination returns the operand's (value, non-poison) pair untouched;
every other destination goes through the int round-trip pipeline, which is
abstracted as `rest` (it is irrelevant to the no-op claim). -/
def conversionOp_bitcast_toSMT {V : Type} (retTy : IRType)
    (rest : V → V) (v : V) : V :=
  if bitcastIsPtrVecNop retTy then v else rest v

/-- A symbolic boolean expression as the loop approximator observes it:
its evaluation under the ambient model together with whether it is a
syntactic literal constant (the expression library constant-folds, so
`isConst` holds exactly for folded literals). -/
structure SymBool where
  val : Bool
  isConst : Bool
deriving DecidableEq, Repr

/-- The literal `true` expression. -/
def strue : SymBool := ⟨true, true⟩

/-- The literal `false` expression. -/
def sfalse : SymBool := ⟨false, true⟩

/-- Conjunction with the expression library's constant folding. -/
def sand (a b : SymBool) : SymBool :=
  if a.isConst then (if a.val then b else sfalse)
  else if b.isConst then (if b.val then a else sfalse)
  else ⟨a.val && b.val, false⟩

/-- Disjunction with the expression library's constant folding. -/
def sor (a b : SymBool) : SymBool :=
  if a.isConst then (if a.val then strue else b)
  else if b.isConst then (if b.val then strue else a)
  else ⟨a.val || b.val, false⟩

/-- Negation (`expr::operator!`): constancy is preserved. -/
def snot (a : SymBool) : SymBool := ⟨!a.val, a.isConst⟩

/-- `expr::implies`: `!a || b`. -/
def simplies (a b : SymBool) : SymBool := sor (snot a) b

/-- `expr::isFalse`: a syntactic literal `false`. -/
def sIsFalse (a : SymBool) : Bool := a.isConst && !a.val

/-- The number of values of a C++ `unsigned`. -/
def U32 : Nat := 4294967296

/-- The `i >= unroll_cnt - 1` test of `LoopLikeFunctionApproximator::_loop`
with the unsigned wraparound of `unroll_cnt - 1`. -/
def isLastIter (unroll i : Nat) : Bool :=
  decide ((unroll + (U32 - 1)) % U32 ≤ i)

/-- Result of one `_loop` call: the composed value, non-poison and UB
expressions plus the assumptions pushed via `s.addPre`, in order. -/
structure LoopOut (V : Type) where
  value : V
  np : SymBool
  ub : SymBool
  pres : List SymBool
deriving DecidableEq, Repr

/-- `LoopLikeFunctionApproximator::_loop` (ir/instr.cpp).  `ith` returns
(value, non-poison, UB, continue) for iteration `i`; `mkIfV` is
`expr::mkIf` at the value type; `pfx` is the accumulated prefix.  The C++
recursion is unbounded when `continue` stays a constant `true`, hence the
explicit `fuel` (every theorem supplies enough fuel for its run);
`s.isViablePath()` is modelled as always viable. -/
def loop_ {V : Type} (mkIfV : SymBool → V → V → V)
    (ith : Nat → Bool → V × SymBool × SymBool × SymBool)
    (pfx : SymBool) (i unroll : Nat) : Nat → LoopOut V
  | 0 =>
      ⟨(ith i (isLastIter unroll i)).1, (ith i (isLastIter unroll i)).2.1,
       (ith i (isLastIter unroll i)).2.2.1, []⟩
  | fuel + 1 =>
      let is_last0 := isLastIter unroll i
      let step := ith i is_last0
      let res_i := step.1
      let np_i := step.2.1
      let ub_i := step.2.2.1
      let cont := step.2.2.2
      let pfx1 := sand pfx ub_i
      let is_last := is_last0 && !cont.isConst
      let pres0 : List SymBool :=
        if is_last then [simplies pfx1 (snot cont)] else []
      if is_last || sIsFalse cont || sIsFalse ub_i then
        ⟨res_i, np_i, ub_i, pres0⟩
      else
        let r := loop_ mkIfV ith (sand pfx1 cont) (i + 1) unroll fuel
        ⟨mkIfV cont r.value res_i,
         sand np_i (simplies cont r.np),
         sand ub_i (simplies cont r.ub),
         pres0 ++ r.pres⟩

/-- `LoopLikeFunctionApproximator::encode`. -/
def loopEncode {V : Type} (mkIfV : SymBool → V → V → V)
    (ith : Nat → Bool → V × SymBool × SymBool × SymBool)
    (unroll fuel : Nat) : LoopOut V :=
  loop_ mkIfV ith strue 0 unroll fuel

/-- `expr::mkIf` on 32-bit integer values, semantically. -/
def mkIfNat (c : SymBool) (t e : Nat) : Nat :=
  if c.val then t else e

/-- A raw memory byte as `Memory::raw_load` returns it: pointer flag,
pointer address, non-pointer value and poison bit. -/
structure RawByte where
  isPtr : Bool
  ptrAddr : Nat
  nonptrValue : Nat
  poison : Bool
deriving DecidableEq, Repr

/-- `Byte::isZero`: a null pointer byte or a zero integer byte. -/
def byteIsZero (v : RawByte) : Bool :=
  if v.isPtr then decide (v.ptrAddr = 0) else decide (v.nonptrValue = 0)

/-- The `ith_exec` step of `Memcmp::toSMT`.  `mem` is the byte memory
(`raw_load`), `rv`/`rvneg` the semantic values of the fresh
`memcmp_nonzero`/`memcmp` result variables, `contConst` tells whether the
step's continue expression is a syntactic constant (an arbitrary oracle:
the claims hold for every choice). -/
def memcmp_ith (mem : Nat → RawByte) (p1 p2 vnum : Nat)
    (is_bcmp : Bool) (rv rvneg : Nat) (contConst : Nat → Bool)
    (i : Nat) (_is_last : Bool) : Nat × SymBool × SymBool × SymBool :=
  let val1 := mem (p1 + i)
  let val2 := mem (p2 + i)
  let pos := if val1.isPtr then decide (val2.ptrAddr ≤ val1.ptrAddr)
             else decide (val2.nonptrValue ≤ val1.nonptrValue)
  let result_neq := if is_bcmp then rv else (if pos then rv else rvneg)
  let val_eq :=
    ((val1.isPtr == val2.isPtr)
      && (if val1.isPtr then decide (val1.ptrAddr = val2.ptrAddr)
          else decide (val1.nonptrValue = val2.nonptrValue)))
    || (byteIsZero val1 && byteIsZero val2)
  let np := ((val1.isPtr == val2.isPtr) || byteIsZero val1 || byteIsZero val2)
    && !val1.poison && !val2.poison
  ((if val_eq then 0 else result_neq),
   ⟨np, false⟩,
   strue,
   ⟨val_eq && decide (i + 2 ≤ vnum), contConst i⟩)

/-- Result of `Memcmp::toSMT`: the instruction's (value, non-poison) pair,
the UB conditions pushed, and the assumptions the loop added. -/
structure MemcmpOut where
  value : Nat
  non_poison : Bool
  ubs : List Bool
  pres : List SymBool

/-- `Memcmp::toSMT` (ir/instr.cpp).  `np1`/`np2` are the pointer operands'
non-poison predicates, `deref1`/`deref2` the external dereferenceability
conditions; the byte count `vnum` went through `getAndAddPoisonUB`. -/
def memcmp_toSMT (mem : Nat → RawByte) (p1 p2 vnum : Nat)
    (np1 np2 deref1 deref2 : Bool) (is_bcmp : Bool) (rv rvneg : Nat)
    (contConst : Nat → Bool) (unroll fuel : Nat) : MemcmpOut :=
  let r := loopEncode mkIfNat
    (memcmp_ith mem p1 p2 vnum is_bcmp rv rvneg contConst) unroll fuel
  { value := if vnum = 0 then 0 else r.value,
    non_poison := decide (vnum = 0) || r.np.val,
    ubs := [decide (vnum = 0) || (np1 && np2), deref1, deref2],
    pres := r.pres }

/-- One varargs-ledger entry (`State::VarArgsEntry`), semantically. -/
structure VAEntry where
  alive : Bool
  next_arg : Nat
  num_args : Nat
  is_va_start : Bool
  active : Bool
deriving DecidableEq, Repr

/-- The varargs ledger: entries keyed by (concrete) pointer value, in
insertion order. -/
abbrev VAData := List (Nat × VAEntry)

/-- Modulus of the `VARARG_BITS = 8` bounded index arithmetic. -/
def varargMod : Nat := 256

/-- `VaStart::toSMT` (ir/instr.cpp): update any aliasing entries, then
`try_emplace` a fresh one.  `n` is the semantic value of the symbolic
`num_va_args`; the external UB conditions (enclosing function is varargs,
block alive, block size ≥ 4) are passed in. -/
def vaStart_toSMT (fnIsVarArgs blockAlive sizeGe4 : Bool)
    (data : VAData) (raw_p n : Nat) : VAData × List Bool :=
  let matched := data.any (fun pe => pe.1 == raw_p)
  let data1 := data.map (fun pe =>
    let eq := pe.1 == raw_p
    (pe.1,
     ({ alive := pe.2.alive || eq,
        next_arg := if eq then 0 else pe.2.next_arg,
        num_args := if eq then n else pe.2.num_args,
        is_va_start := if eq then true else pe.2.is_va_start,
        active := pe.2.active } : VAEntry)))
  let data2 := if data1.any (fun pe => pe.1 == raw_p) then data1
               else data1 ++ [(raw_p, ⟨true, 0, n, true, !matched⟩)]
  (data2, [fnIsVarArgs, blockAlive, sizeGe4])

/-- `ensure_varargs_ptr` (ir/instr.cpp): if no entry matches, add the UB
condition `matched || !isLocal` and emplace an entry whose alive/num-args
fields are uninterpreted functions of the pointer. -/
def ensure_varargs_ptr (ufAlive : Nat → Bool) (ufNum : Nat → Nat)
    (isLocal : Bool) (data : VAData) (arg_ptr : Nat) : VAData × List Bool :=
  let matched := data.any (fun pe => pe.1 == arg_ptr)
  if matched then (data, [])
  else (data ++ [(arg_ptr, ⟨ufAlive arg_ptr, 0, ufNum arg_ptr, false,
                            !matched⟩)],
        [matched || !isLocal])

/-- `VaArg::toSMT` (ir/instr.cpp): for every ledger entry add the UB
condition `select → alive && num_args ≥ next_arg + 1` and bump the
matching entries' `next_arg` (mod 2^VARARG_BITS).  Returns the updated
ledger and the UB conditions in order (block-alive first, then the
`ensure_varargs_ptr` condition, then one per entry).  The fetched value
itself is built from uninterpreted functions and is not needed by the
claims. -/
def vaArg_toSMT (ufAlive : Nat → Bool) (ufNum : Nat → Nat)
    (isLocal blockAlive : Bool) (data : VAData) (raw_p : Nat)
    : VAData × List Bool :=
  let e1 := ensure_varargs_ptr ufAlive ufNum isLocal data raw_p
  let stepped := e1.1.map (fun pe =>
    let eq := pe.1 == raw_p
    let select := pe.2.active && eq
    let next := (pe.2.next_arg + 1) % varargMod
    (((pe.1, { pe.2 with next_arg := if eq then next else pe.2.next_arg })
        : Nat × VAEntry),
     (!select || (pe.2.alive && decide (next ≤ pe.2.num_args)))))
  (stepped.map Prod.fst, [blockAlive] ++ e1.2 ++ stepped.map Prod.snd)

/-- The three x86 vector-shift families encoded by
`X86IntrinBinOp::toSMT` (psrl/psra/psll). -/
inductive X86ShiftKind
  | psrl | psra | psll
deriving DecidableEq, Repr

/-- Little-endian concatenation of `elem_bw`-bit lanes
(`vv.value.concat(shift_v)` accumulates later lanes as higher bits). -/
def lowBitsConcat (ebw : Nat) : List Nat → Nat
  | [] => 0
  | x :: xs => x + 2 ^ ebw * lowBitsConcat ebw xs

/-- The per-lane shift operator of the x86 variable-shift encoding: the
64-bit amount is compared against the element width, and the lane is
shifted by the truncated amount otherwise. -/
def x86ShiftFn (k : X86ShiftKind) (ebw sv64 a : Nat) : Nat :=
  let b := sv64 % 2 ^ ebw
  match k with
  | .psrl => if ebw ≤ sv64 then 0 else a / 2 ^ b
  | .psra =>
      if ebw ≤ sv64 then
        (if intSMin ebw ≤ a then allOnes ebw else 0)
      else ofInt ebw (Int.ediv (toSigned ebw a) ((2 : Int) ^ b))
  | .psll => if ebw ≤ sv64 then 0 else (a * 2 ^ b) % 2 ^ ebw

/-- The psrl/psra/psll case of `X86IntrinBinOp::toSMT`: the shift amount
is the concatenation of the low 64 bits of operand `b` (the first
`64 / elem_bw` lanes), its non-poison the conjunction of those lanes'
non-poison; each result lane is the shifted `a` lane with non-poison
`shift_np && a_i.np`. -/
def x86_shift_toSMT (k : X86ShiftKind) (ebw : Nat)
    (alanes blanes : List (Nat × Bool)) : List (Nat × Bool) :=
  let e := 64 / ebw
  let shift_v := lowBitsConcat ebw ((blanes.take e).map Prod.fst)
  let shift_np := (blanes.take e).all Prod.snd
  alanes.map (fun ai => (x86ShiftFn k ebw shift_v ai.1, shift_np && ai.2))

/-- Plain scalar shift semantics (the claimed per-lane behavior of the
x86 variable shifts when the amount is in range): logical right,
arithmetic right, or left shift of an `ebw`-bit lane. -/
def plainShift (k : X86ShiftKind) (ebw a s : Nat) : Nat :=
  match k with
  | .psrl => a / 2 ^ s
  | .psra => ofInt ebw (Int.ediv (toSigned ebw a) ((2 : Int) ^ s))
  | .psll => (a * 2 ^ s) % 2 ^ ebw

/-- C1 fails as stated: `cttz` is an integer `BinOp` opcode that can carry
no nsw/nuw/exact flags, yet at `a = 0` with is-zero-poison flag `b = 1` and
both operands non-poison its result's non-poison predicate is `false`, not
the conjunction `true && true` of the operands' non-poison predicates. -/
theorem binop_cttz_np_not_operand_conj :
    (binop_toSMT .cttz noFlags 8 0 true 1 true).vals.map Prod.snd
      ≠ [true && true] := by
  decide

/-- C1 (amended): for every `BinOp` opcode other than `cttz`, `ctlz` and
`abs`, with no nsw/nuw/exact flags set and with every UB condition the
encoding pushed holding, the non-poison predicate of each result lane is
exactly the conjunction of the operands' non-poison predicates and the
shift-amount domain check, and no UB condition at all is pushed outside the
div/rem opcodes. -/
theorem binop_noflags_np_exact (op : BinOpOp)
    (h1 : op ≠ .cttz) (h2 : op ≠ .ctlz) (h3 : op ≠ .iabs)
    (w a b : Nat) (ap bp : Bool)
    (hub : ∀ u ∈ (binop_toSMT op noFlags w a ap b bp).ubs, u = true) :
    (∀ pr ∈ (binop_toSMT op noFlags w a ap b bp).vals,
        pr.2 = (ap && bp && shiftDomainOk op w b))
    ∧ (isDivOrRem op = false → (binop_toSMT op noFlags w a ap b bp).ubs = []) := by
  cases op <;>
    simp_all [binop_toSMT, div_ub, binopFnNp, shiftDomainOk,
      hasShiftDomainCheck, isDivOrRem, isVerticalZip, noFlags] <;>
    cases ap <;> cases bp <;> simp_all

/-- Witness for C1's amended theorem at `add 1, 2` on `i8`. -/
theorem binop_noflags_np_exact_witness :
    ((3, true) : Nat × Bool).2
      = (true && true && shiftDomainOk .add 8 2) :=
  (binop_noflags_np_exact .add (by decide) (by decide) (by decide)
      8 1 2 true true (by decide)).1 (3, true) (by decide)

/-- C2: div/rem UB encoding.  (1) `BinOp::isDivOrRem` holds exactly for
sdiv, udiv, srem, urem; (2) the unsigned `div_ub` conditions hold exactly
when the divisor is non-zero; (3) with a non-poison dividend, the signed
`div_ub` conditions hold exactly when the divisor is non-zero and the
dividend/divisor pair is not (INT_MIN, -1); (4) for the four div/rem opcodes
the UB conditions pushed are exactly the divisor's non-poison predicate
(via `getAndAddPoisonUB`) followed by the `div_ub` conditions; (5) no other
opcode pushes any UB condition. -/
theorem binop_divrem_ub_exact :
    (∀ op, isDivOrRem op = true
        ↔ (op = .sdiv ∨ op = .udiv ∨ op = .srem ∨ op = .urem))
    ∧ (∀ w a b : Nat, ∀ ap : Bool,
        ((∀ u ∈ div_ub w a b ap false, u = true) ↔ b ≠ 0))
    ∧ (∀ w a b : Nat,
        ((∀ u ∈ div_ub w a b true true, u = true)
          ↔ (b ≠ 0 ∧ ¬(a = intSMin w ∧ b = allOnes w))))
    ∧ (∀ (fl : BinOpFlags) (w a : Nat) (ap : Bool) (b : Nat) (bp : Bool),
        (binop_toSMT .sdiv fl w a ap b bp).ubs = bp :: div_ub w a b ap true
        ∧ (binop_toSMT .udiv fl w a ap b bp).ubs = bp :: div_ub w a b ap false
        ∧ (binop_toSMT .srem fl w a ap b bp).ubs = bp :: div_ub w a b ap true
        ∧ (binop_toSMT .urem fl w a ap b bp).ubs = bp :: div_ub w a b ap false)
    ∧ (∀ (op : BinOpOp) (fl : BinOpFlags) (w a : Nat) (ap : Bool) (b : Nat)
          (bp : Bool), isDivOrRem op = false →
        (binop_toSMT op fl w a ap b bp).ubs = []) := by
  refine ⟨?_, ?_, ?_, ?_, ?_⟩
  · intro op; cases op <;> simp [isDivOrRem]
  · intro w a b ap; simp [div_ub]
  · intro w a b; simp [div_ub]; tauto
  · intro fl w a ap b bp
    refine ⟨rfl, rfl, rfl, rfl⟩
  · intro op fl w a ap b bp hop
    cases op <;> simp_all [binop_toSMT, isDivOrRem, isVerticalZip]

/-- Witness for C2 at `add` (no UB pushed) — part (5) at a concrete input. -/
theorem binop_divrem_ub_exact_witness :
    (binop_toSMT .add noFlags 8 1 true 2 true).ubs = [] :=
  binop_divrem_ub_exact.2.2.2.2 .add noFlags 8 1 true 2 true (by decide)

/-- C3 fails as stated: an `shl` whose shift amount (8) equals the bit
width (8) pushes no UB condition at all into the state; the encoding
instead marks the result lane poison. -/
theorem binop_shl_oob_no_ub :
    (binop_toSMT .shl noFlags 8 1 true 8 true).ubs = []
    ∧ (binop_toSMT .shl noFlags 8 1 true 8 true).vals.map Prod.snd
        = [false] := by
  decide

/-- C3 (amended): for shl/ashr/lshr with any flag set, the encoding never
pushes a UB condition, and a shift amount at least the bit width makes
every result lane poison (the non-poison predicate is false). -/
theorem binop_shift_oob_poison (op : BinOpOp)
    (hop : op = .shl ∨ op = .ashr ∨ op = .lshr)
    (fl : BinOpFlags) (w a : Nat) (ap : Bool) (b : Nat) (bp : Bool) :
    (binop_toSMT op fl w a ap b bp).ubs = []
    ∧ (w ≤ b → ∀ pr ∈ (binop_toSMT op fl w a ap b bp).vals, pr.2 = false) := by
  have key : ∀ (hw : w ≤ b), (decide (b < w)) = false := by
    intro hw; simp [Nat.not_lt.mpr hw]
  rcases hop with h | h | h <;> subst h <;>
    refine ⟨rfl, ?_⟩ <;> intro hw pr hpr <;>
    simp only [binop_toSMT, isVerticalZip, isDivOrRem, binopFnNp,
      if_neg, List.mem_singleton] at hpr <;>
    simp_all [key hw]

/-- Witness for C3's amended theorem: `shl 1, 9` on `i8`. -/
theorem binop_shift_oob_poison_witness :
    (binop_toSMT .shl noFlags 8 1 true 9 true).ubs = []
    ∧ ((0, false) : Nat × Bool).2 = false :=
  ⟨(binop_shift_oob_poison .shl (Or.inl rfl) noFlags 8 1 true 9 true).1,
   (binop_shift_oob_poison .shl (Or.inl rfl) noFlags 8 1 true 9 true).2
     (by decide) (0, false)
     (by decide)⟩

/-- Replacing a zero by the other signed zero keeps the kind. -/
theorem any_fp_zero_kind (ch : Bool) (v : FPVal) :
    (any_fp_zero ch v).kind = v.kind := by
  unfold any_fp_zero
  split <;> rfl

/-- Subnormal flushing never touches a zero. -/
theorem handle_subnormal_zero (attr : FPDenormalTy) (v : FPVal)
    (h : v.kind = FPKind.zero) : handle_subnormal attr v = v := by
  cases attr <;> simp [handle_subnormal, FPVal.isFPSubNormal, h]

/-- On a zero the output choice selects each signed zero. -/
theorem any_fp_zero_sign_select (v : FPVal) (h : v.kind = FPKind.zero) :
    any_fp_zero v.neg v = fpPZero ∧ any_fp_zero (!v.neg) v = fpNZero := by
  obtain ⟨n, k⟩ := v
  subst h
  cases n <;> simp [any_fp_zero, FPVal.isFPZero, FPVal.fneg, fpPZero, fpNZero]

/-- Evaluation of the binary `fm_poison` under the NSZ-only flag set on
zero inputs: the value is the output-choice rewrite of the operator
applied to the input-choice rewrites, the non-poison predicate is exactly
the operands' conjunction, and no approximation or UB is recorded. -/
theorem fm_poison2_nsz_eval (denorm : FPDenormalTy) (uf : ApproxUFs)
    (cha chb chres : Bool) (a : FPVal) (ap : Bool) (b : FPVal) (bp : Bool)
    (fn2 : FPVal → FPVal → FPVal)
    (ha : a.kind = FPKind.zero) (hb : b.kind = FPKind.zero) :
    fm_poison2 denorm uf cha chb chres a ap b bp fn2 nszOnly false true
      = ⟨any_fp_zero chres (fn2 (any_fp_zero cha a) (any_fp_zero chb b)),
         ap && bp, [], []⟩ := by
  have h1 : handle_subnormal denorm (any_fp_zero cha a) = any_fp_zero cha a :=
    handle_subnormal_zero _ _ (by rw [any_fp_zero_kind]; exact ha)
  have h2 : handle_subnormal denorm (any_fp_zero chb b) = any_fp_zero chb b :=
    handle_subnormal_zero _ _ (by rw [any_fp_zero_kind]; exact hb)
  simp [fm_poison2, fm_poison3, nszOnly, h1, h2]

/-- C9: with only the NoSignedZero fast-math flag set and both inputs
statically signed zeros, the encoding can produce the result `+0.0` and
can also produce the result `-0.0` (each under some assignment of the
fresh "anyzero" choice variables), while the result's non-poison predicate
is exactly the operands' conjunction for every choice and no UB condition
is ever pushed. -/
theorem fm_poison_nsz_both_signs (denorm : FPDenormalTy) (uf : ApproxUFs)
    (sa sb : Bool) (ap bp : Bool) (fn2 : FPVal → FPVal → FPVal)
    (hz : ∀ x y, x.kind = FPKind.zero → y.kind = FPKind.zero →
        (fn2 x y).kind = FPKind.zero) :
    (∃ cha chb chres,
        (fm_poison2 denorm uf cha chb chres ⟨sa, .zero⟩ ap ⟨sb, .zero⟩ bp
          fn2 nszOnly false true).val = fpPZero)
    ∧ (∃ cha chb chres,
        (fm_poison2 denorm uf cha chb chres ⟨sa, .zero⟩ ap ⟨sb, .zero⟩ bp
          fn2 nszOnly false true).val = fpNZero)
    ∧ (∀ cha chb chres,
        (fm_poison2 denorm uf cha chb chres ⟨sa, .zero⟩ ap ⟨sb, .zero⟩ bp
          fn2 nszOnly false true).non_poison = (ap && bp))
    ∧ (∀ cha chb chres,
        (fm_poison2 denorm uf cha chb chres ⟨sa, .zero⟩ ap ⟨sb, .zero⟩ bp
          fn2 nszOnly false true).ubs = []) := by
  have hk : (fn2 ⟨sa, .zero⟩ ⟨sb, .zero⟩).kind = FPKind.zero := hz _ _ rfl rfl
  have hzero : ∀ ch : Bool, any_fp_zero ch (⟨sa, FPKind.zero⟩ : FPVal)
      = any_fp_zero ch ⟨sa, .zero⟩ := fun _ => rfl
  refine ⟨?_, ?_, ?_, ?_⟩
  · refine ⟨false, false, (fn2 ⟨sa, .zero⟩ ⟨sb, .zero⟩).neg, ?_⟩
    rw [fm_poison2_nsz_eval denorm uf false false _ _ ap _ bp fn2 rfl rfl]
    simpa [any_fp_zero] using (any_fp_zero_sign_select _ hk).1
  · refine ⟨false, false, !(fn2 ⟨sa, .zero⟩ ⟨sb, .zero⟩).neg, ?_⟩
    rw [fm_poison2_nsz_eval denorm uf false false _ _ ap _ bp fn2 rfl rfl]
    simpa [any_fp_zero] using (any_fp_zero_sign_select _ hk).2
  · intro cha chb chres
    rw [fm_poison2_nsz_eval denorm uf cha chb chres _ ap _ bp fn2 rfl rfl]
  · intro cha chb chres
    rw [fm_poison2_nsz_eval denorm uf cha chb chres _ ap _ bp fn2 rfl rfl]

/-- Witness for C9 at a concrete zero-preserving operator. -/
theorem fm_poison_nsz_both_signs_witness :
    (fm_poison2 .ieee ⟨id, id, id, id⟩ false false false ⟨false, .zero⟩ true
      ⟨false, .zero⟩ true (fun x _ => x) nszOnly false true).non_poison
      = (true && true) :=
  (fm_poison_nsz_both_signs .ieee ⟨id, id, id, id⟩ false false true true
      (fun x _ => x) (fun _ _ hx _ => hx)).2.2.1 false false false

/-- C5: rounding-mode resolution.  A default mode evaluates the operator
at round-to-nearest-even; a fixed mode evaluates it at that mode and
conjoins `ambient register = mode` onto the non-poison predicate; a
dynamic mode selects, through the nested conditionals over the ambient
register, exactly the operator evaluated at the register's current mode
(RTZ being the final fallback); and `round_value` subnormal-flushes the
resolved value per the denormal-output attribute. -/
theorem round_value_resolution (fn : RoundingMode → FPVal × Bool)
    (var : RoundingMode) (outAttr : FPDenormalTy) :
    (round_value_ fn var .dflt = fn .rne)
    ∧ (∀ m, round_value_ fn var (.fixed m)
          = ((fn m).1, (fn m).2 && decide (var = m)))
    ∧ (round_value_ fn var .dyn = fn var)
    ∧ (∀ rm, round_value fn var outAttr rm true
          = (handle_subnormal outAttr (round_value_ fn var rm).1,
             (round_value_ fn var rm).2)) := by
  refine ⟨rfl, fun m => rfl, ?_, fun rm => rfl⟩
  cases var <;> simp [round_value_, svIf]

/-- C8: the `BitCast` encoding returns the operand's (value, non-poison)
pair untouched when the destination (and hence, per the claim's
hypothesis, the source) is a vector of pointers; and in general the
`BitCast` type constraints force the source and destination total bit
widths to be equal. -/
theorem bitcast_ptrvec_nop_and_size_eq :
    (∀ (V : Type) (retTy valTy : IRType) (rest : V → V) (v : V),
        bitcastIsPtrVecNop retTy = true → bitcastIsPtrVecNop valTy = true →
        conversionOp_bitcast_toSMT retTy rest v = v)
    ∧ (∀ t s : IRType, bitcast_typeConstraints t s →
        typeBits t = typeBits s) := by
  constructor
  · intro V retTy valTy rest v h1 _
    simp [conversionOp_bitcast_toSMT, h1]
  · intro t s h
    exact h.2.2.2

/-- Witness for C8: a 2-lane pointer-vector bitcast is the identity even
against a constant-zero residual pipeline. -/
theorem bitcast_ptrvec_nop_witness :
    conversionOp_bitcast_toSMT (.vecT 2 .ptrT) (fun _ : Nat => 0) 7 = 7 :=
  bitcast_ptrvec_nop_and_size_eq.1 Nat (.vecT 2 .ptrT) (.vecT 2 .ptrT)
    (fun _ => 0) 7 (by decide) (by decide)

/-- The folding conjunction evaluates as conjunction. -/
theorem sand_val (a b : SymBool) : (sand a b).val = (a.val && b.val) := by
  rcases a with ⟨av, ac⟩
  rcases b with ⟨bv, bc⟩
  cases ac <;> cases bc <;> cases av <;> cases bv <;> rfl

/-- The folding disjunction evaluates as disjunction. -/
theorem sor_val (a b : SymBool) : (sor a b).val = (a.val || b.val) := by
  rcases a with ⟨av, ac⟩
  rcases b with ⟨bv, bc⟩
  cases ac <;> cases bc <;> cases av <;> cases bv <;> rfl

/-- The implication expression evaluates as implication. -/
theorem simplies_val (a b : SymBool) :
    (simplies a b).val = (!a.val || b.val) := by
  simp [simplies, sor_val, snot]

/-- C4 fails as stated: with a continuation that is a syntactic constant
(a scan applied to constant input: continue is literally `true` for two
steps then literally `false`), unrolling passes the bound 1 with NO
forcing assumption ever pushed; with a non-constant continuation, the
bound immediately pushes one.  The spec's exception clause is inverted
relative to the code. -/
theorem loop_force_assumption_inverted :
    (loop_ mkIfNat
        (fun i _ => (i, strue, strue, if i < 2 then strue else sfalse))
        strue 0 1 5).pres = []
    ∧ (loop_ mkIfNat (fun i _ => (i, strue, strue, ⟨true, false⟩))
        strue 0 1 5).pres ≠ [] := by
  constructor
  · rfl
  · decide

/-- C4 (amended): (1) when every continuation expression is a syntactic
constant, no forcing assumption is ever pushed (unrolling instead
continues past the bound until the constant continue goes false); (2) at
the bound, a non-constant continuation pushes exactly the forcing
assumption `accumulated prefix → ¬continue` and stops; (3) below the
bound, a step's UB is conjoined unconditionally while the next
iterations' value, non-poison and UB are used only under this step's
continue flag, via conditional composition, and no assumption is pushed
at this step. -/
theorem loop_bound_behavior :
    (∀ (V : Type) (mkIfV : SymBool → V → V → V)
        (ith : Nat → Bool → V × SymBool × SymBool × SymBool)
        (pfx : SymBool) (i unroll fuel : Nat),
        (∀ j b, ((ith j b).2.2.2).isConst = true) →
        (loop_ mkIfV ith pfx i unroll fuel).pres = [])
    ∧ (∀ (V : Type) (mkIfV : SymBool → V → V → V)
        (ith : Nat → Bool → V × SymBool × SymBool × SymBool)
        (pfx : SymBool) (i unroll fuel : Nat),
        isLastIter unroll i = true →
        ((ith i true).2.2.2).isConst = false →
        loop_ mkIfV ith pfx i unroll (fuel + 1)
          = ⟨(ith i true).1, (ith i true).2.1, (ith i true).2.2.1,
             [simplies (sand pfx (ith i true).2.2.1)
                (snot (ith i true).2.2.2)]⟩)
    ∧ (∀ (V : Type) (mkIfV : SymBool → V → V → V)
        (ith : Nat → Bool → V × SymBool × SymBool × SymBool)
        (pfx : SymBool) (i unroll fuel : Nat)
        (res_i : V) (np_i ub_i cont : SymBool),
        isLastIter unroll i = false →
        ith i false = (res_i, np_i, ub_i, cont) →
        sIsFalse cont = false →
        sIsFalse ub_i = false →
        (loop_ mkIfV ith pfx i unroll (fuel + 1)).value
            = mkIfV cont
                (loop_ mkIfV ith (sand (sand pfx ub_i) cont) (i + 1) unroll
                  fuel).value res_i
        ∧ (loop_ mkIfV ith pfx i unroll (fuel + 1)).np.val
            = (np_i.val && (!cont.val
                || (loop_ mkIfV ith (sand (sand pfx ub_i) cont) (i + 1)
                      unroll fuel).np.val))
        ∧ (loop_ mkIfV ith pfx i unroll (fuel + 1)).ub.val
            = (ub_i.val && (!cont.val
                || (loop_ mkIfV ith (sand (sand pfx ub_i) cont) (i + 1)
                      unroll fuel).ub.val))
        ∧ (loop_ mkIfV ith pfx i unroll (fuel + 1)).pres
            = (loop_ mkIfV ith (sand (sand pfx ub_i) cont) (i + 1) unroll
                fuel).pres) := by
  refine ⟨?_, ?_, ?_⟩
  · intro V mkIfV ith pfx i unroll fuel hconst
    induction fuel generalizing pfx i with
    | zero => rfl
    | succ n IH =>
      have hc : ((ith i (isLastIter unroll i)).2.2.2).isConst = true :=
        hconst _ _
      simp only [loop_, hc, Bool.not_true, Bool.and_false, Bool.false_or]
      split
      · simp
      · simpa using IH _ _
  · intro V mkIfV ith pfx i unroll fuel h1 h2
    simp [loop_, h1, h2]
  · intro V mkIfV ith pfx i unroll fuel res_i np_i ub_i cont h1 hstep h3 h4
    simp only [loop_, h1, hstep, h3, h4, Bool.false_and, Bool.or_false,
      Bool.false_or]
    refine ⟨rfl, ?_, ?_, by simp⟩
    · simp [sand_val, simplies_val]
    · simp [sand_val, simplies_val]

/-- Witness for C4's amended theorem: a constant-true continuation never
pushes an assumption. -/
theorem loop_bound_behavior_witness :
    (loop_ mkIfNat (fun _ _ => (0, strue, strue, strue)) strue 0 1 3).pres
      = [] :=
  loop_bound_behavior.1 Nat mkIfNat (fun _ _ => (0, strue, strue, strue))
    strue 0 1 3 (fun _ _ => rfl)

/-- With both pointers equal, every memcmp iteration's value expression is
zero: the two loaded bytes coincide, so `val_eq` holds. -/
theorem memcmp_ith_value_zero (mem : Nat → RawByte) (p vnum : Nat)
    (is_bcmp : Bool) (rv rvneg : Nat) (contConst : Nat → Bool)
    (i : Nat) (L : Bool) :
    (memcmp_ith mem p p vnum is_bcmp rv rvneg contConst i L).1 = 0 := by
  simp [memcmp_ith]

/-- With both pointers equal, the unrolled loop's composed value is zero
whatever the prefix, position, bound and fuel. -/
theorem memcmp_loop_value_zero (mem : Nat → RawByte) (p vnum : Nat)
    (is_bcmp : Bool) (rv rvneg : Nat) (contConst : Nat → Bool)
    (fuel : Nat) :
    ∀ pfx i unroll,
      (loop_ mkIfNat (memcmp_ith mem p p vnum is_bcmp rv rvneg contConst)
        pfx i unroll fuel).value = 0 := by
  induction fuel with
  | zero =>
      intro pfx i unroll
      simpa [loop_] using memcmp_ith_value_zero mem p vnum is_bcmp rv rvneg
        contConst i (isLastIter unroll i)
  | succ n IH =>
      intro pfx i unroll
      simp only [loop_]
      split
      · simpa using memcmp_ith_value_zero mem p vnum is_bcmp rv rvneg
          contConst i (isLastIter unroll i)
      · simp only [mkIfNat, IH]
        split
        · rfl
        · simpa using memcmp_ith_value_zero mem p vnum is_bcmp rv rvneg
            contConst i (isLastIter unroll i)

/-- C6: the encoding of `memcmp(p, p, n)` (or `bcmp(p, p, n)`) has result
value identically zero — for every byte memory, every byte count, every
value of the fresh nonzero result variables, every constancy oracle and
every unroll bound and fuel. -/
theorem memcmp_self_zero (mem : Nat → RawByte) (p vnum : Nat)
    (np1 np2 deref1 deref2 : Bool) (is_bcmp : Bool) (rv rvneg : Nat)
    (contConst : Nat → Bool) (unroll fuel : Nat) :
    (memcmp_toSMT mem p p vnum np1 np2 deref1 deref2 is_bcmp rv rvneg
      contConst unroll fuel).value = 0 := by
  simp [memcmp_toSMT, loopEncode,
    memcmp_loop_value_zero mem p vnum is_bcmp rv rvneg contConst fuel]

/-- C7: (general part) a va_arg fetch on a tracked pointer adds, for the
matching active ledger entry, the UB condition
`active → alive ∧ num_args ≥ next_arg + 1`, and bumps that entry's
`next_arg` by one (mod 2^VARARG_BITS); (scenario) after `va_start` on a
pointer with `num_args` constrained to 2, two successive fetches produce
only satisfied UB conditions while a third fetch produces a false one
(provable UB). -/
theorem vaarg_fetch_bound :
    (∀ (ufAlive : Nat → Bool) (ufNum : Nat → Nat)
        (isLocal blockAlive : Bool) (data : VAData) (raw_p : Nat)
        (e : VAEntry), (raw_p, e) ∈ data →
        ((!e.active
            || (e.alive
                && decide ((e.next_arg + 1) % varargMod ≤ e.num_args)))
          ∈ (vaArg_toSMT ufAlive ufNum isLocal blockAlive data raw_p).2)
        ∧ ((raw_p, { e with next_arg := (e.next_arg + 1) % varargMod })
          ∈ (vaArg_toSMT ufAlive ufNum isLocal blockAlive data raw_p).1))
    ∧ (let F := fun d => vaArg_toSMT (fun _ => false) (fun _ => 0) false true
         d 5
       let s1 := F (vaStart_toSMT true true true [] 5 2).1
       let s2 := F s1.1
       let s3 := F s2.1
       s1.2.all id = true ∧ s2.2.all id = true ∧ false ∈ s3.2) := by
  constructor
  · intro ufAlive ufNum isLocal blockAlive data raw_p e hmem
    have hmatch : data.any (fun pe => pe.1 == raw_p) = true :=
      List.any_eq_true.mpr ⟨(raw_p, e), hmem, by simp⟩
    constructor
    · simp only [vaArg_toSMT, ensure_varargs_ptr, hmatch, if_pos,
        List.map_map, List.singleton_append, List.nil_append,
        List.mem_cons, List.mem_map]
      right
      exact ⟨(raw_p, e), hmem, by simp⟩
    · simp only [vaArg_toSMT, ensure_varargs_ptr, hmatch, if_pos,
        List.map_map, List.mem_map]
      exact ⟨(raw_p, e), hmem, by simp⟩
  · decide

/-- Witness for C7's general part at a one-entry ledger with
`num_args = 2`. -/
theorem vaarg_fetch_bound_witness :
    ((!true || (true && decide ((0 + 1) % varargMod ≤ 2)))
        ∈ (vaArg_toSMT (fun _ => false) (fun _ => 0) false true
            [(5, ⟨true, 0, 2, true, true⟩)] 5).2)
    ∧ ((5, ({ alive := true, next_arg := (0 + 1) % varargMod, num_args := 2,
              is_va_start := true, active := true } : VAEntry))
        ∈ (vaArg_toSMT (fun _ => false) (fun _ => 0) false true
            [(5, ⟨true, 0, 2, true, true⟩)] 5).1) :=
  vaarg_fetch_bound.1 (fun _ => false) (fun _ => 0) false true
    [(5, ⟨true, 0, 2, true, true⟩)] 5 ⟨true, 0, 2, true, true⟩
    (by decide)

/-- C10: per-lane behavior of the x86 variable-shift encoding.  (1) if any
lane inside the low 64 bits of the shift operand is poison, every result
lane is poison; (2) when the 64-bit shift amount reaches the element
width, every result lane is 0 for psrl/psll and the sign replication for
psra; (3) otherwise every result lane is the plain shift of the matching
`a` lane by the truncated amount, with non-poison `shift_np && a_i.np`. -/
theorem x86_shift_encoding (k : X86ShiftKind) (ebw : Nat)
    (alanes blanes : List (Nat × Bool)) :
    ((∃ pr ∈ blanes.take (64 / ebw), pr.2 = false) →
      ∀ r ∈ x86_shift_toSMT k ebw alanes blanes, r.2 = false)
    ∧ (ebw ≤ lowBitsConcat ebw ((blanes.take (64 / ebw)).map Prod.fst) →
        x86_shift_toSMT k ebw alanes blanes
          = alanes.map (fun ai =>
              ((match k with
                | .psrl => 0
                | .psra => if intSMin ebw ≤ ai.1 then allOnes ebw else 0
                | .psll => 0),
               (blanes.take (64 / ebw)).all Prod.snd && ai.2)))
    ∧ (lowBitsConcat ebw ((blanes.take (64 / ebw)).map Prod.fst) < ebw →
        x86_shift_toSMT k ebw alanes blanes
          = alanes.map (fun ai =>
              (plainShift k ebw ai.1
                 (lowBitsConcat ebw ((blanes.take (64 / ebw)).map Prod.fst)
                   % 2 ^ ebw),
               (blanes.take (64 / ebw)).all Prod.snd && ai.2))) := by
  refine ⟨?_, ?_, ?_⟩
  · rintro ⟨pr, hpr, hp2⟩ r hr
    have hall : (blanes.take (64 / ebw)).all Prod.snd = false := by
      by_contra hne
      have := List.all_eq_true.mp (Bool.not_eq_false _ |>.mp hne) pr hpr
      rw [hp2] at this
      exact Bool.false_ne_true this
    simp only [x86_shift_toSMT, hall, List.mem_map] at hr
    obtain ⟨ai, _, rfl⟩ := hr
    simp
  · intro h
    cases k <;> simp [x86_shift_toSMT, x86ShiftFn, h, -List.map_take]
  · intro h
    have h2 : ¬ ebw ≤ lowBitsConcat ebw ((blanes.take (64 / ebw)).map
        Prod.fst) := Nat.not_le.mpr h
    cases k <;>
      simp [x86_shift_toSMT, x86ShiftFn, plainShift, h2, -List.map_take]

/-- Witness for C10: a 16-bit psrl of the single lane 4 by amount 1. -/
theorem x86_shift_encoding_witness :
    x86_shift_toSMT .psrl 16 [(4, true)]
        [(1, true), (0, true), (0, true), (0, true)]
      = [(4, true)].map (fun ai =>
          (plainShift .psrl 16 ai.1
             (lowBitsConcat 16
                (([(1, true), (0, true), (0, true), (0, true)].take
                    (64 / 16)).map Prod.fst) % 2 ^ 16),
           ([(1, true), (0, true), (0, true), (0, true)].take
              (64 / 16)).all Prod.snd && ai.2)) :=
  (x86_shift_encoding .psrl 16 [(4, true)]
      [(1, true), (0, true), (0, true), (0, true)]).2.2 (by decide)

end AliveIR
